import Mathlib

/-!
Verification of the prsqlite core: the table B-tree cursor and payload
assembler (src/cursor.rs) and the SQL mini-parser (src/parser.rs).

The cursor and payload code sit on external collaborators (pager, page
codec, tokenizer) that are not part of the two source files; following the
specification they are modelled abstractly: the pager is a partial map
from page ids to already-decoded page contents, the overflow-page codec is
a pair of partial functions (fetch, parse), and the tokenizer is a
parameter function producing `(consumed_bytes, token)`.

Machine integers (`u16` cell indices, `u32` sizes and offsets) are
modelled as `Nat`; the code never exercises wrap-around on well-formed
pages (a page holds far fewer than 2^16 cells and payload sizes are
`u32`), so no explicit modular reduction is needed for the claims below.
-/

deriving instance DecidableEq for Except

namespace Prsqlite

/-- A byte, modelled as `Nat` (values < 256 in all concrete inputs). -/
abbrev Byte := Nat

/-! ## B-tree cursor (src/cursor.rs, `BtreeCursor`)

Modelled from the spec: the page codec (`BtreePageHeader::from_page`,
`parse_btree_leaf_table_cell`, `BtreeInteriorTableCell::get`) lives in
`btree.rs`, outside the two given source files.  Per the spec's §6
contracts a page decodes to: `is_leaf`, `n_cells`, `right_page_id`
(interior only), and per-cell parse results.  A `BPage` is that decoded
view; a `none` cell is one whose parse fails. -/

/-- Result of `parse_btree_leaf_table_cell` per the spec's §6 contract:
`(rowkey, size, payload_range, overflow)`. -/
structure LeafCellParse where
  key : Int
  size : Nat
  payloadRange : Nat × Nat
  overflow : Option Nat
deriving DecidableEq, Repr

/-- Decoded page content.  A leaf page is its list of leaf-cell parse
results (`none` = cell parse failure); an interior page is its list of
interior-cell child page ids (`none` = cell parse failure) plus the
header's rightmost child page id. -/
inductive BPage where
  | leafPage (cells : List (Option LeafCellParse))
  | interiorPage (cells : List (Option Nat)) (rightPageId : Nat)
deriving DecidableEq, Repr

/-- Modelled from the spec: `Pager::get_page` maps a `PageId` to a page
buffer or fails; composed with the page codec it yields a decoded page. -/
abbrev Pager := Nat → Option BPage

/-- Cursor state, mirroring the fields of `BtreeCursor` in src/cursor.rs
(the `pager` reference is passed as a function argument instead). -/
structure BtreeCursor where
  usableSize : Nat
  currentPageId : Nat
  currentPage : BPage
  idxCell : Nat
  parentPages : List (Nat × Nat)
deriving DecidableEq, Repr

/-- Embedding of `BtreeCursor::new`: fetch the root page, start at cell index 0 with an
empty parent stack.  Fails exactly when the page fetch fails. -/
def BtreeCursor.new (rootPage : Nat) (pager : Pager) (usableSize : Nat) :
    Option BtreeCursor :=
  match pager rootPage with
  | none => none
  | some p => some ⟨usableSize, rootPage, p, 0, []⟩

/-- Embedding of `BtreeCursor::move_to_child`: push the current position, fetch the
child page, reset the cell index. -/
def BtreeCursor.moveToChild (pager : Pager) (s : BtreeCursor) (pageId : Nat) :
    Option BtreeCursor :=
  match pager pageId with
  | none => none
  | some p =>
      some ⟨s.usableSize, pageId, p, 0,
            (s.currentPageId, s.idxCell) :: s.parentPages⟩

/-- Embedding of `BtreeCursor::back_to_parent`: pop the parent stack; on an empty stack
return `false` leaving the state unchanged, otherwise fetch the parent and
resume at the popped cell index plus one. -/
def BtreeCursor.backToParent (pager : Pager) (s : BtreeCursor) :
    Option (Bool × BtreeCursor) :=
  match s.parentPages with
  | [] => some (false, s)
  | (pid, idx) :: rest =>
      match pager pid with
      | none => none
      | some p => some (true, ⟨s.usableSize, pid, p, idx + 1, rest⟩)

/-- Outcome of one iteration of the loop body of `BtreeCursor::next`. -/
inductive StepRes where
  | cont (s : BtreeCursor)
  | emit (cell : LeafCellParse) (s : BtreeCursor)
  | fin (s : BtreeCursor)
  | err
deriving DecidableEq, Repr

/-- One iteration of the loop inside `BtreeCursor::next`, with the exact
branch structure of the source: (1) interior and `idx_cell == n_cells`:
advance the index and descend into `right_page_id`; (2) `idx_cell >=
n_cells`: ascend, returning `None` when the parent stack is empty; (3)
leaf: parse cell `idx_cell`, advance, emit; (4) interior: parse the
interior cell and descend into its child. -/
def step (pager : Pager) (s : BtreeCursor) : StepRes :=
  match s.currentPage with
  | .interiorPage cells rightId =>
      if s.idxCell = cells.length then
        match BtreeCursor.moveToChild pager { s with idxCell := s.idxCell + 1 } rightId with
        | none => .err
        | some s₁ => .cont s₁
      else if cells.length < s.idxCell then
        match BtreeCursor.backToParent pager s with
        | none => .err
        | some (false, s₁) => .fin s₁
        | some (true, s₁) => .cont s₁
      else
        match cells[s.idxCell]? with
        | some (some childId) =>
            match BtreeCursor.moveToChild pager s childId with
            | none => .err
            | some s₁ => .cont s₁
        | _ => .err
  | .leafPage cells =>
      if cells.length ≤ s.idxCell then
        match BtreeCursor.backToParent pager s with
        | none => .err
        | some (false, s₁) => .fin s₁
        | some (true, s₁) => .cont s₁
      else
        match cells[s.idxCell]? with
        | some (some cell) => .emit cell { s with idxCell := s.idxCell + 1 }
        | _ => .err

/-- Result of one `BtreeCursor::next` call (`nofuel` marks exhaustion of
the loop-iteration bound; the Rust loop has no such bound and the claims
quantify it away). -/
inductive NextRes where
  | emit (cell : LeafCellParse) (s : BtreeCursor)
  | fin (s : BtreeCursor)
  | err
  | nofuel
deriving DecidableEq, Repr

/-- Embedding of `BtreeCursor::next`: run loop iterations (`step`) until a payload is
emitted, the walk finishes, or an error surfaces.  The emitted
`LeafCellParse` carries exactly the data the source packs into the
returned `BtreePayload`; the state in `emit`/`fin` is the cursor state
after the call. -/
def next (pager : Pager) : Nat → BtreeCursor → NextRes
  | 0, _ => .nofuel
  | fuel + 1, s =>
      match step pager s with
      | .cont s₁ => next pager fuel s₁
      | .emit c s₁ => .emit c s₁
      | .fin s₁ => .fin s₁
      | .err => .err

/-- Repeated `next` calls: collect emitted cells until the first `fin`
(`none` on error, fuel exhaustion, or step-count exhaustion). -/
def emitList (pager : Pager) : Nat → Nat → BtreeCursor → Option (List LeafCellParse)
  | 0, _, _ => none
  | steps + 1, fuel, s =>
      match next pager fuel s with
      | .emit c s₁ => (emitList pager steps fuel s₁).map (c :: ·)
      | .fin _ => some []
      | _ => none

/-! ## Well-formed table B-trees -/

/-- Abstract table B-tree: each node records the page id it lives on; a
leaf holds its (successfully parsed) cells, an interior node its child
subtrees in cell order plus the rightmost child. -/
inductive Btree where
  | leaf (pid : Nat) (cells : List LeafCellParse)
  | interior (pid : Nat) (children : List Btree) (rightChild : Btree)

/-- Root page id of a subtree. -/
def Btree.rootId : Btree → Nat
  | .leaf pid _ => pid
  | .interior pid _ _ => pid

/-- The leaf cells of a tree in left-to-right (file) order. -/
def Btree.rows : Btree → List LeafCellParse
  | .leaf _ cells => cells
  | .interior _ [] r => Btree.rows r
  | .interior pid (c :: cs) r => Btree.rows c ++ Btree.rows (.interior pid cs r)
termination_by t => sizeOf t
decreasing_by all_goals (simp <;> omega)

/-- The decoded page a well-formed node presents to the cursor. -/
def pageOf : Btree → BPage
  | .leaf _ cells => .leafPage (cells.map some)
  | .interior _ children r =>
      .interiorPage (children.map fun c => some c.rootId) r.rootId

/-- The pager represents the tree: every node's page fetches and decodes
to exactly the node's content (all cell parses succeed). -/
inductive Represents (pager : Pager) : Btree → Prop where
  | leaf {pid cells} :
      pager pid = some (.leafPage (cells.map some)) →
      Represents pager (.leaf pid cells)
  | interior {pid children r} :
      pager pid = some (.interiorPage (children.map fun c => some c.rootId) r.rootId) →
      (∀ c ∈ children, Represents pager c) →
      Represents pager r →
      Represents pager (.interior pid children r)

theorem Represents.page_eq {pager : Pager} {t : Btree}
    (h : Represents pager t) : pager t.rootId = some (pageOf t) := by
  cases h with
  | leaf h => exact h
  | interior h _ _ => exact h

/-- The loop from state `s` eventually returns `None`, emitting `out` on
the way, with no error: one rule per `step` outcome. -/
inductive Collects (pager : Pager) : BtreeCursor → List LeafCellParse → Prop where
  | cont {s s₁ out} : step pager s = .cont s₁ →
      Collects pager s₁ out → Collects pager s out
  | emit {s s₁ c out} : step pager s = .emit c s₁ →
      Collects pager s₁ out → Collects pager s (c :: out)
  | fin {s s₁} : step pager s = .fin s₁ → Collects pager s []

/-- Cell index of a subtree's root page once the whole subtree has been
walked and the cursor has returned to it: `n_cells` on a leaf,
`n_cells + 2` on an interior page (the `n_cells + 1` sentinel was consumed
descending into the rightmost child and ascent added one more). -/
def exhaustIdx : Btree → Nat
  | .leaf _ cells => cells.length
  | .interior _ children _ => children.length + 2

/-- Cursor state positioned at the start of a subtree. -/
def subtreeStart (u : Nat) (t : Btree) (stk : List (Nat × Nat)) : BtreeCursor :=
  ⟨u, t.rootId, pageOf t, 0, stk⟩

/-- Cursor state positioned at an exhausted subtree's root. -/
def subtreeEnd (u : Nat) (t : Btree) (stk : List (Nat × Nat)) : BtreeCursor :=
  ⟨u, t.rootId, pageOf t, exhaustIdx t, stk⟩

/-- From an exhausted subtree root with a non-empty parent stack, one loop
iteration ascends to the popped parent position plus one. -/
theorem step_ascend (pager : Pager) (u : Nat) (t : Btree) (pid j : Nat)
    (stk : List (Nat × Nat)) (pg : BPage) (h : pager pid = some pg) :
    step pager (subtreeEnd u t ((pid, j) :: stk)) = .cont ⟨u, pid, pg, j + 1, stk⟩ := by
  cases t with
  | leaf p cells =>
      simp [subtreeEnd, exhaustIdx, pageOf, Btree.rootId, step,
            BtreeCursor.backToParent, h]
  | interior p children r =>
      have h2 : ¬ children.length + 2 = children.length := by omega
      simp [subtreeEnd, exhaustIdx, pageOf, Btree.rootId, step,
            BtreeCursor.backToParent, h, h2]

/-- From an exhausted root with an empty parent stack, one loop iteration
finishes the walk. -/
theorem step_exhaust_root (pager : Pager) (u : Nat) (t : Btree) :
    step pager (subtreeEnd u t []) = .fin (subtreeEnd u t []) := by
  cases t with
  | leaf p cells =>
      simp [subtreeEnd, exhaustIdx, pageOf, Btree.rootId, step,
            BtreeCursor.backToParent]
  | interior p children r =>
      have h2 : ¬ children.length + 2 = children.length := by omega
      simp [subtreeEnd, exhaustIdx, pageOf, Btree.rootId, step,
            BtreeCursor.backToParent, h2]

/-- A `Collects` derivation determines the behaviour of `next` (for all
sufficiently large iteration bounds): either nothing is left and `next`
finishes, or `next` emits the head cell and the rest is collected from the
post-state. -/
theorem next_of_collects {pager : Pager} {s : BtreeCursor} {out : List LeafCellParse}
    (h : Collects pager s out) :
    (out = [] ∧ ∃ N s₁, ∀ f, N ≤ f → next pager f s = .fin s₁) ∨
    (∃ c rest N s₁, out = c :: rest ∧
      (∀ f, N ≤ f → next pager f s = .emit c s₁) ∧ Collects pager s₁ rest) := by
  induction h with
  | @fin s s₁ hstep =>
      left
      refine ⟨rfl, 1, s₁, fun f hf => ?_⟩
      obtain ⟨f', rfl⟩ : ∃ f', f = f' + 1 := ⟨f - 1, by omega⟩
      simp [next, hstep]
  | @emit s s₁ c out hstep hcol ih =>
      right
      refine ⟨c, out, 1, s₁, rfl, fun f hf => ?_, hcol⟩
      obtain ⟨f', rfl⟩ : ∃ f', f = f' + 1 := ⟨f - 1, by omega⟩
      simp [next, hstep]
  | @cont s s₁ out hstep hcol ih =>
      rcases ih with ⟨rfl, N, s₂, hN⟩ | ⟨c, rest, N, s₂, rfl, hN, hc⟩
      · left
        refine ⟨rfl, N + 1, s₂, fun f hf => ?_⟩
        obtain ⟨f', rfl⟩ : ∃ f', f = f' + 1 := ⟨f - 1, by omega⟩
        have hstep' : next pager (f' + 1) s = next pager f' s₁ := by
          simp [next, hstep]
        rw [hstep']
        exact hN f' (by omega)
      · right
        refine ⟨c, rest, N + 1, s₂, rfl, fun f hf => ?_, hc⟩
        obtain ⟨f', rfl⟩ : ∃ f', f = f' + 1 := ⟨f - 1, by omega⟩
        have hstep' : next pager (f' + 1) s = next pager f' s₁ := by
          simp [next, hstep]
        rw [hstep']
        exact hN f' (by omega)

/-- A `Collects` derivation determines repeated `next` calls: with any
step budget above the number of emitted cells and any sufficiently large
iteration bound, the emitted list is exactly `out` followed by `None`. -/
theorem emitList_of_collects {pager : Pager} :
    ∀ {out : List LeafCellParse} {s : BtreeCursor}, Collects pager s out →
    ∃ N, ∀ steps f, out.length < steps → N ≤ f → emitList pager steps f s = some out := by
  intro out
  induction out with
  | nil =>
      intro s h
      rcases next_of_collects h with ⟨-, N, s₁, hN⟩ | ⟨c, rest, N, s₁, heq, -, -⟩
      · refine ⟨N, fun steps f hs hf => ?_⟩
        obtain ⟨st, rfl⟩ : ∃ st, steps = st + 1 := ⟨steps - 1, by omega⟩
        simp [emitList, hN f hf]
      · cases heq
  | cons c rest ih =>
      intro s h
      rcases next_of_collects h with ⟨heq, -⟩ | ⟨c', rest', N, s₁, heq, hN, hcol⟩
      · cases heq
      · cases heq
        obtain ⟨N', hN'⟩ := ih hcol
        refine ⟨max N N', fun steps f hs hf => ?_⟩
        obtain ⟨st, rfl⟩ : ∃ st, steps = st + 1 := ⟨steps - 1, by omega⟩
        have h1 : next pager f s = .emit c s₁ := hN f (le_trans (le_max_left _ _) hf)
        have h2 : emitList pager st f s₁ = some rest :=
          hN' st f (by simpa using hs) (le_trans (le_max_right _ _) hf)
        simp [emitList, h1, h2]

/-- Walking a leaf page from cell `i` emits the remaining cells in order
and then continues from the exhausted page. -/
theorem collects_leaf_walk (pager : Pager) (u pid : Nat)
    (cells : List LeafCellParse) (stk : List (Nat × Nat)) :
    ∀ (k i : Nat) (out : List LeafCellParse), cells.length - i = k → i ≤ cells.length →
    Collects pager ⟨u, pid, .leafPage (cells.map some), cells.length, stk⟩ out →
    Collects pager ⟨u, pid, .leafPage (cells.map some), i, stk⟩ (cells.drop i ++ out) := by
  intro k
  induction k with
  | zero =>
      intro i out h0 hle hc
      have hi : i = cells.length := by omega
      subst hi
      simpa using hc
  | succ k ih =>
      intro i out h0 hle hc
      have hi : i < cells.length := by omega
      have hstep : step pager ⟨u, pid, .leafPage (cells.map some), i, stk⟩ =
          .emit cells[i] ⟨u, pid, .leafPage (cells.map some), i + 1, stk⟩ := by
        have hne : ¬ cells.length ≤ i := by omega
        simp [step, hne, List.getElem?_map, List.getElem?_eq_getElem hi]
      have hrec := ih (i + 1) out (by omega) (by omega) hc
      have hdrop : cells.drop i = cells[i] :: cells.drop (i + 1) :=
        List.drop_eq_getElem_cons hi
      rw [hdrop]
      exact Collects.emit hstep hrec

/-- Helper list of rows of a list of subtrees, in order. -/
def rowsOf : List Btree → List LeafCellParse
  | [] => []
  | c :: cs => c.rows ++ rowsOf cs

theorem rows_interior (pid : Nat) (r : Btree) :
    ∀ children : List Btree,
      (Btree.interior pid children r).rows = rowsOf children ++ r.rows := by
  intro children
  induction children with
  | nil => simp [Btree.rows, rowsOf]
  | cons c cs ih => simp [Btree.rows, rowsOf, ih]

/-- Walking an interior page from cell index `pre.length` (the remaining
children being `cs`) emits the rows of `cs`, then the rows of the
rightmost child, then continues from the exhausted page. -/
theorem collects_children_walk (pager : Pager) (u pid : Nat)
    (children : List Btree) (r : Btree)
    (hpid : pager pid = some (.interiorPage (children.map fun c => some c.rootId) r.rootId))
    (hr : pager r.rootId = some (pageOf r))
    (ihr : ∀ stk out, Collects pager (subtreeEnd u r stk) out →
        Collects pager (subtreeStart u r stk) (r.rows ++ out))
    (ihc : ∀ c ∈ children, pager c.rootId = some (pageOf c) ∧
        ∀ stk out, Collects pager (subtreeEnd u c stk) out →
        Collects pager (subtreeStart u c stk) (c.rows ++ out)) :
    ∀ (cs pre : List Btree), children = pre ++ cs →
    ∀ stk out,
    Collects pager ⟨u, pid, .interiorPage (children.map fun c => some c.rootId) r.rootId,
        children.length + 2, stk⟩ out →
    Collects pager ⟨u, pid, .interiorPage (children.map fun c => some c.rootId) r.rootId,
        pre.length, stk⟩ (rowsOf cs ++ (r.rows ++ out)) := by
  intro cs
  induction cs with
  | nil =>
      intro pre hsplit stk out hc
      have hpre : pre = children := by simpa using hsplit.symm
      subst hpre
      have hstep : step pager
          ⟨u, pid, .interiorPage (pre.map fun c => some c.rootId) r.rootId,
            pre.length, stk⟩ =
          .cont (subtreeStart u r ((pid, pre.length + 1) :: stk)) := by
        simp [step, subtreeStart, BtreeCursor.moveToChild, hr]
      have hend : Collects pager (subtreeEnd u r ((pid, pre.length + 1) :: stk)) out := by
        refine Collects.cont (step_ascend pager u r pid (pre.length + 1) stk _ hpid) ?_
        simpa using hc
      have := ihr ((pid, pre.length + 1) :: stk) out hend
      simpa [rowsOf] using Collects.cont hstep this
  | cons c cs ihcs =>
      intro pre hsplit stk out hc
      have hlen : children.length = pre.length + (cs.length + 1) := by
        rw [hsplit]; simp
      have hi : pre.length < children.length := by omega
      have hmem : c ∈ children := by rw [hsplit]; simp
      obtain ⟨hcpage, hcw⟩ := ihc c hmem
      have hcell : (children.map fun x => some x.rootId)[pre.length]? =
          some (some c.rootId) := by
        rw [hsplit]
        rw [List.getElem?_map]
        rw [List.getElem?_append_right (le_refl pre.length)]
        simp
      have hne : ¬ pre.length = children.length := by omega
      have hlt : ¬ children.length < pre.length := by omega
      have hstep : step pager
          ⟨u, pid, .interiorPage (children.map fun x => some x.rootId) r.rootId,
            pre.length, stk⟩ =
          .cont (subtreeStart u c ((pid, pre.length) :: stk)) := by
        simp [step, hne, hlt, hcell, subtreeStart, BtreeCursor.moveToChild, hcpage]
      have hnext : Collects pager
          ⟨u, pid, .interiorPage (children.map fun x => some x.rootId) r.rootId,
            pre.length + 1, stk⟩ (rowsOf cs ++ (r.rows ++ out)) := by
        have := ihcs (pre ++ [c]) (by simpa using hsplit) stk out hc
        simpa using this
      have hend : Collects pager (subtreeEnd u c ((pid, pre.length) :: stk))
          (rowsOf cs ++ (r.rows ++ out)) :=
        Collects.cont (step_ascend pager u c pid pre.length stk _ hpid) hnext
      have hmain := hcw ((pid, pre.length) :: stk) (rowsOf cs ++ (r.rows ++ out)) hend
      have := Collects.cont hstep hmain
      simpa [rowsOf, List.append_assoc] using this

/-- Main traversal lemma: on a represented subtree, starting at its root
with any continuation stack, the loop emits exactly the subtree's rows and
then behaves as from the exhausted root. -/
theorem collects_subtree (pager : Pager) (u : Nat) :
    ∀ (N : Nat) (t : Btree), sizeOf t ≤ N → Represents pager t →
    ∀ stk out, Collects pager (subtreeEnd u t stk) out →
    Collects pager (subtreeStart u t stk) (t.rows ++ out) := by
  intro N
  induction N with
  | zero =>
      intro t hsize
      exfalso
      cases t <;> simp at hsize
  | succ N ih =>
      intro t hsize hrep stk out hc
      cases hrep with
      | @leaf pid cells hp =>
          have := collects_leaf_walk pager u pid cells stk cells.length 0 out
            (by omega) (by omega)
            (by simpa [subtreeEnd, exhaustIdx, pageOf, Btree.rootId] using hc)
          simpa [subtreeStart, pageOf, Btree.rootId, Btree.rows] using this
      | @interior pid children r hp hcs hr =>
          have hsr : sizeOf r ≤ N := by
            simp at hsize; omega
          have ihr := fun stk out h => ih r hsr hr stk out h
          have ihc : ∀ c ∈ children, pager c.rootId = some (pageOf c) ∧
              ∀ stk out, Collects pager (subtreeEnd u c stk) out →
              Collects pager (subtreeStart u c stk) (c.rows ++ out) := by
            intro c hcmem
            have hsc : sizeOf c ≤ N := by
              have := List.sizeOf_lt_of_mem hcmem
              simp at hsize; omega
            exact ⟨(hcs c hcmem).page_eq, fun stk out h => ih c hsc (hcs c hcmem) stk out h⟩
          have := collects_children_walk pager u pid children r hp hr.page_eq ihr ihc
            children [] rfl stk out
            (by simpa [subtreeEnd, exhaustIdx, pageOf, Btree.rootId] using hc)
          simpa [subtreeStart, pageOf, Btree.rootId, rows_interior, List.append_assoc]
            using this

/-- The function `backToParent` yields `false` only on an empty stack, leaving the
state unchanged. -/
theorem backToParent_false {pager : Pager} {s s₁ : BtreeCursor}
    (h : BtreeCursor.backToParent pager s = some (false, s₁)) :
    s₁ = s ∧ s.parentPages = [] := by
  unfold BtreeCursor.backToParent at h
  rcases hpp : s.parentPages with _ | ⟨⟨pid, idx⟩, rest⟩ <;> rw [hpp] at h
  · refine ⟨?_, rfl⟩
    injection h with h'
    injection h' with h1 h2
    exact h2.symm
  · rcases hpg : pager pid with _ | pg <;> simp [hpg] at h

/-- A `fin` step leaves the state unchanged and that state steps to `fin`
again: the terminal state is absorbing. -/
theorem step_fin_eq {pager : Pager} {s s₁ : BtreeCursor}
    (h : step pager s = .fin s₁) : s₁ = s ∧ step pager s₁ = .fin s₁ := by
  have hs : s₁ = s := by
    unfold step at h
    repeat' split at h
    all_goals first
      | (cases h; exact (backToParent_false (by assumption)).1)
      | cases h
  subst hs
  exact ⟨rfl, h⟩

/-- Once `next` has returned `None`, the returned state steps to `fin`. -/
theorem next_fin_terminal {pager : Pager} :
    ∀ {fuel : Nat} {s s₁ : BtreeCursor}, next pager fuel s = .fin s₁ →
    step pager s₁ = .fin s₁ := by
  intro fuel
  induction fuel with
  | zero => intro s s₁ h; simp [next] at h
  | succ f ih =>
      intro s s₁ h
      simp only [next] at h
      cases hstep : step pager s with
      | cont s₂ => rw [hstep] at h; exact ih h
      | emit c s₂ => rw [hstep] at h; cases h
      | fin s₂ =>
          rw [hstep] at h
          cases h
          exact (step_fin_eq hstep).2
      | err => rw [hstep] at h; cases h

/-! ## Claims about the cursor -/

/-- Claim C1: for every well-formed table B-tree (every page fetch and
cell/header parse succeeds, expressed by `Represents`), a fresh cursor
created with `new(root_page_id, pager, usable_size)` emits, over
successive `next()` calls, every leaf cell of the tree exactly once in
left-to-right (file) order — the emitted list is exactly `t.rows` — and
emits exactly `R = t.rows.length` payloads before first returning `None`
(`emitList` returns `some t.rows` only if the run ends in a first
`None`). -/
theorem cursor_emits_rows_in_order (pager : Pager) (u : Nat) (t : Btree)
    (h : Represents pager t) :
    ∃ s₀ N, BtreeCursor.new t.rootId pager u = some s₀ ∧
      ∀ n, N ≤ n → emitList pager n n s₀ = some t.rows := by
  have hroot : Collects pager (subtreeEnd u t []) [] :=
    Collects.fin (step_exhaust_root pager u t)
  have hcol : Collects pager (subtreeStart u t []) t.rows := by
    simpa using collects_subtree pager u (sizeOf t) t le_rfl h [] [] hroot
  obtain ⟨N, hN⟩ := emitList_of_collects hcol
  refine ⟨subtreeStart u t [], max N (t.rows.length + 1), ?_, ?_⟩
  · simp [BtreeCursor.new, h.page_eq, subtreeStart]
  · intro n hn
    exact hN n n (by omega) (by omega)

def cellW1 : LeafCellParse := ⟨1, 1, (0, 1), none⟩

def cellW2 : LeafCellParse := ⟨2, 1, (0, 1), none⟩

def cellW3 : LeafCellParse := ⟨3, 9, (0, 1), some 9⟩

def treeW : Btree := .interior 1 [.leaf 2 [cellW1]] (.leaf 3 [cellW2, cellW3])

def pagerW : Pager := fun pid =>
  if pid = 1 then some (.interiorPage [some 2] 3)
  else if pid = 2 then some (.leafPage [some cellW1])
  else if pid = 3 then some (.leafPage [some cellW2, some cellW3])
  else none

theorem pagerW_represents : Represents pagerW treeW := by
  refine Represents.interior rfl ?_ (Represents.leaf rfl)
  intro c hc
  simp [treeW] at hc
  subst hc
  exact Represents.leaf rfl

/-- Witness for C1 on a two-level tree with three rows. -/
theorem cursor_emits_rows_in_order_witness :
    Represents pagerW treeW ∧
    ∃ s₀ N, BtreeCursor.new treeW.rootId pagerW 512 = some s₀ ∧
      ∀ n, N ≤ n → emitList pagerW n n s₀ = some treeW.rows :=
  ⟨pagerW_represents, cursor_emits_rows_in_order pagerW 512 treeW pagerW_represents⟩

/-- Claim C5: once `next()` has returned `None` (result `.fin s₁`, the
cursor state being `s₁`), every subsequent `next()` call on that cursor
also returns `None` and leaves the state unchanged — the cursor never
re-descends and never emits another payload.  This holds for any cursor
over any pager (in particular over a well-formed table B-tree whether the
root is a leaf or an interior page). -/
theorem next_none_is_permanent (pager : Pager) (fuel : Nat) (s s₁ : BtreeCursor)
    (h : next pager fuel s = .fin s₁) :
    ∀ f : Nat, next pager (f + 1) s₁ = .fin s₁ := by
  have hterm := next_fin_terminal h
  intro f
  simp [next, hterm]

def pagerEmptyLeaf : Pager := fun pid =>
  if pid = 1 then some (.leafPage []) else none

/-- Witness for C5: an empty single-leaf table; the first `next` returns
`None` and so do all later calls. -/
theorem next_none_is_permanent_witness :
    next pagerEmptyLeaf 1 ⟨0, 1, .leafPage [], 0, []⟩ =
      .fin ⟨0, 1, .leafPage [], 0, []⟩ ∧
    next pagerEmptyLeaf 8 ⟨0, 1, .leafPage [], 0, []⟩ =
      .fin ⟨0, 1, .leafPage [], 0, []⟩ :=
  ⟨by decide,
    next_none_is_permanent pagerEmptyLeaf 1 ⟨0, 1, .leafPage [], 0, []⟩
      ⟨0, 1, .leafPage [], 0, []⟩ (by decide) 7⟩

def pagerBadCell : Pager := fun pid =>
  if pid = 1 then some (.leafPage [none]) else none

/-- Claim C10: `BtreeCursor::new` performs no validation of the root
page's contents: it fails exactly when the pager's fetch fails, succeeds
on any page content whatsoever (returning the freshly initialised state),
and a malformed root (here a leaf whose only cell fails to parse)
surfaces only at the first `next()` call, never at construction. -/
theorem new_no_validation :
    (∀ (pager : Pager) (pid u : Nat),
        BtreeCursor.new pid pager u = none ↔ pager pid = none) ∧
    (∀ (pager : Pager) (pid u : Nat) (page : BPage), pager pid = some page →
        BtreeCursor.new pid pager u = some ⟨u, pid, page, 0, []⟩) ∧
    (BtreeCursor.new 1 pagerBadCell 7 = some ⟨7, 1, .leafPage [none], 0, []⟩ ∧
      next pagerBadCell 1 ⟨7, 1, .leafPage [none], 0, []⟩ = .err) := by
  refine ⟨?_, ?_, by decide⟩
  · intro pager pid u
    unfold BtreeCursor.new
    cases h : pager pid <;> simp
  · intro pager pid u page h
    simp [BtreeCursor.new, h]

/-- Witness for C10, applying the success case to the malformed-cell
pager. -/
theorem new_no_validation_witness :
    BtreeCursor.new 1 pagerBadCell 7 = some ⟨7, 1, .leafPage [none], 0, []⟩ :=
  new_no_validation.2.1 pagerBadCell 1 7 (.leafPage [none]) rfl

/-! Claim C4 concerns a non-root interior page with `n_cells == 0` met at
`idx_cell == 0`.  In the source the branch taken is
`!is_leaf && idx_cell == n_cells` (0 == 0), which advances the index and
*descends into `right_page_id`* — it does not ascend.  The concrete
counterexample below exhibits a traversal state on such a page (page 1,
parent page 3 on the stack) where `next()` descends into the right child
(page 2) and emits its cell, growing the parent stack, instead of
immediately ascending to the parent. -/

def cellC4a : LeafCellParse := ⟨10, 2, (0, 2), none⟩

def cellC4b : LeafCellParse := ⟨20, 2, (0, 2), none⟩

def pagerC4 : Pager := fun pid =>
  if pid = 3 then some (.interiorPage [some 1] 4)
  else if pid = 1 then some (.interiorPage [] 2)
  else if pid = 2 then some (.leafPage [some cellC4a])
  else if pid = 4 then some (.leafPage [some cellC4b])
  else none

def stateC4 : BtreeCursor := ⟨0, 1, .interiorPage [] 2, 0, [(3, 0)]⟩

/-- Counterexample to C4 as stated: positioned at `idx_cell = 0` on the
non-root interior page 1 with `n_cells = 0`, `next()` does not ascend to
the parent (which would shrink the parent stack and emit page 4's cell
next): it descends into page 1's right child and emits that child's cell,
with the parent stack grown by one entry. -/
theorem empty_interior_descends_counterexample :
    next pagerC4 9 stateC4 =
      .emit cellC4a ⟨0, 2, .leafPage [some cellC4a], 1, [(1, 1), (3, 0)]⟩ ∧
    (⟨0, 2, .leafPage [some cellC4a], 1, [(1, 1), (3, 0)]⟩ : BtreeCursor).parentPages.length
      = stateC4.parentPages.length + 1 := by
  exact ⟨by decide, by decide⟩

/-- Claim C4 as amended: when `next()` encounters a malformed but
parseable non-root interior page with `n_cells == 0` at `idx_cell = 0`,
the cursor descends into the page's rightmost child (the first loop
iteration turns the call into a call started at the right child with the
parent stack grown), and traversal correctness is preserved: the rows of
that right-child subtree — all remaining leaf cells of this subtree — are
still emitted exactly once, in order, before the cursor ascends. -/
theorem empty_interior_descends_right (pager : Pager) (u pid : Nat) (r : Btree)
    (hrep : Represents pager (.interior pid [] r)) :
    (∀ stk fuel, next pager (fuel + 1) (subtreeStart u (.interior pid [] r) stk) =
        next pager fuel (subtreeStart u r ((pid, 1) :: stk))) ∧
    (∀ stk out, Collects pager (subtreeEnd u (.interior pid [] r) stk) out →
        Collects pager (subtreeStart u (.interior pid [] r) stk) (r.rows ++ out)) := by
  have hr : Represents pager r := by
    cases hrep with
    | interior hp hcs hr => exact hr
  constructor
  · intro stk fuel
    have hstep : step pager (subtreeStart u (.interior pid [] r) stk) =
        .cont (subtreeStart u r ((pid, 1) :: stk)) := by
      have h1 : pager r.rootId = some (pageOf r) := hr.page_eq
      have e1 : (Btree.interior pid [] r).rootId = pid := rfl
      have e2 : pageOf (Btree.interior pid [] r) = .interiorPage [] r.rootId := rfl
      simp [subtreeStart, e1, e2, step, BtreeCursor.moveToChild, h1]
    simp [next, hstep]
  · intro stk out hc
    have := collects_subtree pager u (sizeOf (Btree.interior pid [] r))
      (.interior pid [] r) le_rfl hrep stk out hc
    simpa [Btree.rows] using this

def pagerC4W : Pager := fun pid =>
  if pid = 1 then some (.interiorPage [] 2)
  else if pid = 2 then some (.leafPage [some cellC4a]) else none

/-- Witness for the amended C4 on a concrete zero-cell interior root with
a one-row right child. -/
theorem empty_interior_descends_right_witness :
    (∀ stk fuel,
        next pagerC4W (fuel + 1)
          (subtreeStart 3 (.interior 1 [] (.leaf 2 [cellC4a])) stk) =
        next pagerC4W fuel (subtreeStart 3 (.leaf 2 [cellC4a]) ((1, 1) :: stk))) ∧
    (∀ stk out,
        Collects pagerC4W (subtreeEnd 3 (.interior 1 [] (.leaf 2 [cellC4a])) stk) out →
        Collects pagerC4W (subtreeStart 3 (.interior 1 [] (.leaf 2 [cellC4a])) stk)
          ((Btree.leaf 2 [cellC4a]).rows ++ out)) :=
  empty_interior_descends_right pagerC4W 3 1 (.leaf 2 [cellC4a])
    (Represents.interior rfl (by intro c hc; cases hc) (Represents.leaf rfl))

/-! ## Payload assembler (src/cursor.rs, `BtreePayload::load`)

Modelled from the spec: `Pager::get_page` and `OverflowPage::parse` are
external collaborators (§6): `get_page` maps a page id to a page buffer
or fails, `parse` maps a page buffer to `(payload_bytes_slice, next)` or
fails.  Both are parameters here, so every theorem below holds for any
pager and codec obeying those shapes. -/

/-- Modelled from the spec: `Pager::get_page` restricted to overflow
pages; `none` is a fetch failure. -/
abbrev PageFetch := Nat → Option (List Byte)

/-- Modelled from the spec: `OverflowPage::parse`; `none` is a parse
failure. -/
abbrev OverflowParse := List Byte → Option (List Byte × Option Nat)

/-- The abstract error kinds of `BtreePayload::load` (the source uses
`anyhow` strings: "offset exceeds payload size", "overflow page is not
found", the pager's own error, and "parse overflow: ..."). -/
inductive LoadErr where
  | offsetOutOfRange
  | overflowNotFound
  | pagerError
  | overflowParseError
deriving DecidableEq, Repr

/-- The fields of `BtreePayload` (the `pager` reference is passed as a
function argument instead). -/
structure BtreePayload where
  localPayloadBuffer : List Byte
  localPayloadRange : Nat × Nat
  size : Nat
  overflow : Option Nat
deriving DecidableEq, Repr

/-- Embedding of `BtreePayload::buf`: the slice
`local_payload_buffer[local_payload_range]`. -/
def BtreePayload.buf (p : BtreePayload) : List Byte :=
  (p.localPayloadBuffer.take p.localPayloadRange.2).drop p.localPayloadRange.1

/-- The `while !buf.is_empty() && cur < self.size` loop of
`BtreePayload::load`, walking the overflow chain.  State: `cur` is the
logical offset of the current chain position, `offset` the next logical
byte wanted, `bufRem` the remaining destination capacity, `acc` the bytes
written so far.  `fuel` bounds the number of iterations (the Rust loop is
unbounded; a malformed cyclic chain would not terminate); `none` means
the bound was hit, otherwise the result is the loop's own outcome. -/
def loadLoop (fetch : PageFetch) (pov : OverflowParse) (size : Nat) :
    Nat → Nat → Nat → Nat → Option Nat → List Byte →
    Option (Except LoadErr (List Byte))
  | 0, cur, _offset, bufRem, _overflow, acc =>
      if bufRem ≠ 0 ∧ cur < size then none else some (.ok acc)
  | fuel + 1, cur, offset, bufRem, overflow, acc =>
      if bufRem ≠ 0 ∧ cur < size then
        match overflow with
        | none => some (.error .overflowNotFound)
        | some pid =>
            match fetch pid with
            | none => some (.error .pagerError)
            | some pb =>
                match pov pb with
                | none => some (.error .overflowParseError)
                | some (seg, nextOv) =>
                    if offset < cur + seg.length then
                      let lo := offset - cur
                      let n := min (seg.length - lo) bufRem
                      loadLoop fetch pov size fuel (cur + seg.length) (offset + n)
                        (bufRem - n) nextOv (acc ++ (seg.drop lo).take n)
                    else
                      loadLoop fetch pov size fuel (cur + seg.length) offset bufRem
                        nextOv acc
      else some (.ok acc)

/-- Embedding of `BtreePayload::load(offset, buf)`.  The destination buffer is
modelled by its length `bufLen`; the result carries the returned
`n_loaded` together with the bytes written (the first `n_loaded` bytes of
the Rust destination buffer). -/
def BtreePayload.load (fetch : PageFetch) (pov : OverflowParse) (p : BtreePayload)
    (offset bufLen fuel : Nat) : Option (Except LoadErr (Nat × List Byte)) :=
  if p.size ≤ offset then some (.error .offsetOutOfRange)
  else if offset < p.buf.length then
    (loadLoop fetch pov p.size fuel p.buf.length
        (offset + min (p.buf.length - offset) bufLen)
        (bufLen - min (p.buf.length - offset) bufLen) p.overflow
        ((p.buf.drop offset).take (min (p.buf.length - offset) bufLen))).map
      (Except.map fun acc => (acc.length, acc))
  else
    (loadLoop fetch pov p.size fuel p.buf.length offset bufLen p.overflow []).map
      (Except.map fun acc => (acc.length, acc))

/-- The overflow chain starting at `overflow` passes through the payload
segments `segs` (each page fetching and parsing successfully) and then
continues at `rest` (`rest = none`: the chain ends). -/
inductive ChainTo (fetch : PageFetch) (pov : OverflowParse) :
    Option Nat → List (List Byte) → Option Nat → Prop where
  | nil (o : Option Nat) : ChainTo fetch pov o [] o
  | cons {pid pb seg nextOv segs rest} :
      fetch pid = some pb → pov pb = some (seg, nextOv) →
      ChainTo fetch pov nextOv segs rest →
      ChainTo fetch pov (some pid) (seg :: segs) rest

/-- Combined length of the chain segments. -/
def segsLen (segs : List (List Byte)) : Nat := (segs.map List.length).sum

/-- Master lemma for the overflow loop over a complete (terminated) chain
whose combined length does not overshoot `size`: the loop either runs out
of chain while the window still needs bytes (the truncation error), or
returns the requested window of the chain bytes. -/
theorem loadLoop_complete_chain (fetch : PageFetch) (pov : OverflowParse) (size : Nat) :
    ∀ {overflow : Option Nat} {segs : List (List Byte)} {rest : Option Nat},
    ChainTo fetch pov overflow segs rest → rest = none →
    ∀ (fuel cur offset bufRem : Nat) (acc : List Byte),
    (bufRem = 0 ∨ cur ≤ offset) → cur + segsLen segs ≤ size → segs.length < fuel →
    loadLoop fetch pov size fuel cur offset bufRem overflow acc =
      if cur + segsLen segs < size ∧ (cur + segsLen segs) - offset < bufRem
      then some (.error .overflowNotFound)
      else some (.ok (acc ++ ((segs.flatten).drop (offset - cur)).take
          (min bufRem ((cur + segsLen segs) - offset)))) := by
  intro overflow segs rest hchain
  induction hchain with
  | nil o =>
      intro hrest fuel cur offset bufRem acc hinv hsz hfuel
      subst hrest
      obtain ⟨f, rfl⟩ : ∃ f, fuel = f + 1 := ⟨fuel - 1, by omega⟩
      simp only [segsLen, List.map_nil, List.sum_nil, Nat.add_zero] at *
      by_cases hcond : bufRem ≠ 0 ∧ cur < size
      · rw [loadLoop, if_pos hcond, if_pos ?_]
        rcases hinv with h | h
        · exact absurd h hcond.1
        · exact ⟨hcond.2, by omega⟩
      · rw [loadLoop, if_neg hcond, if_neg ?_]
        · simp
        · rcases not_and_or.mp hcond with h | h
          · have hb : bufRem = 0 := by omega
            simp [hb]
          · intro hcc
            exact h hcc.1
  | @cons pid pb seg nextOv segs rest hfetch hpov htail ih =>
      intro hrest fuel cur offset bufRem acc hinv hsz hfuel
      subst hrest
      obtain ⟨f, rfl⟩ : ∃ f, fuel = f + 1 := ⟨fuel - 1, by omega⟩
      have hseglen : segsLen (seg :: segs) = seg.length + segsLen segs := by
        simp [segsLen]
      rw [hseglen] at hsz ⊢
      rcases Nat.eq_zero_or_pos bufRem with hb | hb
      · -- destination already full: the loop exits at once
        rw [loadLoop, if_neg (by simp [hb]), if_neg (by simp [hb])]
        simp [hb]
      by_cases hcs : cur < size
      case neg =>
        -- `cur` has reached `size`: possible only if all segments are empty
        have hz : seg.length = 0 ∧ segsLen segs = 0 ∧ cur = size := by omega
        rw [loadLoop, if_neg (by simp [hcs]), if_neg (by omega)]
        have hfl : (seg :: segs).flatten.length = 0 := by
          rw [List.length_flatten]
          have : segsLen (seg :: segs) = 0 := by rw [hseglen]; omega
          simpa [segsLen] using this
        rw [List.eq_nil_of_length_eq_zero hfl]
        simp
      -- main case: the loop runs an iteration on this chain page
      have hoffcur : cur ≤ offset := by
        rcases hinv with h | h
        · omega
        · exact h
      rw [loadLoop, if_pos ⟨by omega, hcs⟩]
      simp only [hfetch, hpov]
      by_cases hcopy : offset < cur + seg.length
      · rw [if_pos hcopy]
        set lo := offset - cur with hlo
        set n := min (seg.length - lo) bufRem with hn
        have hdlen : (seg.drop lo).length = seg.length - lo := by
          simp [List.length_drop]
        have hfuel2 : segs.length < f := by
          simp only [List.length_cons] at hfuel
          omega
        have hinv2 : bufRem - n = 0 ∨ cur + seg.length ≤ offset + n := by omega
        have hrec := ih rfl f (cur + seg.length) (offset + n) (bufRem - n)
          (acc ++ (seg.drop lo).take n) hinv2 (by omega) hfuel2
        rw [hrec]
        have hflat : (seg :: segs).flatten = seg ++ segs.flatten := by simp
        have hT : cur + seg.length + segsLen segs - (offset + n) =
            cur + (seg.length + segsLen segs) - offset - n := by omega
        rcases Nat.le_total bufRem (seg.length - lo) with hmin | hmin
        · -- n = bufRem: the destination is filled inside this segment
          have hnb : n = bufRem := by omega
          rw [if_neg (by omega), if_neg (by omega)]
          have hwin : ((seg :: segs).flatten.drop (offset - cur)).take
              (min bufRem (cur + (seg.length + segsLen segs) - offset)) =
              (seg.drop lo).take n := by
            rw [hflat, List.drop_append_eq_append_drop]
            have h1 : offset - cur - seg.length = 0 := by omega
            rw [← hlo, h1, List.drop_zero, List.take_append_eq_append_take]
            have h2 : min bufRem (cur + (seg.length + segsLen segs) - offset) = n := by
              omega
            have h3 : n - (seg.drop lo).length = 0 := by omega
            rw [h2, h3, List.take_zero, List.append_nil]
          rw [hwin]
          have h0 : min (bufRem - n) (cur + seg.length + segsLen segs - (offset + n)) = 0 := by
            omega
          rw [h0]
          simp
        · -- n = seg.length - lo: this segment is exhausted, continue
          have hnd : n = seg.length - lo := by omega
          have hcond2 : (cur + seg.length + segsLen segs < size ∧
              cur + seg.length + segsLen segs - (offset + n) < bufRem - n) ↔
              (cur + (seg.length + segsLen segs) < size ∧
               cur + (seg.length + segsLen segs) - offset < bufRem) := by
            constructor <;> intro hc <;> exact ⟨by omega, by omega⟩
          by_cases hcc : cur + (seg.length + segsLen segs) < size ∧
              cur + (seg.length + segsLen segs) - offset < bufRem
          · rw [if_pos (hcond2.mpr hcc), if_pos hcc]
          · rw [if_neg (fun hx => hcc (hcond2.mp hx)), if_neg hcc]
            have hd2 : offset + n - (cur + seg.length) = 0 := by omega
            have hwin : ((seg :: segs).flatten.drop (offset - cur)).take
                (min bufRem (cur + (seg.length + segsLen segs) - offset)) =
                (seg.drop lo).take n ++ (segs.flatten.drop 0).take
                  (min (bufRem - n) (cur + seg.length + segsLen segs - (offset + n))) := by
              rw [hflat, List.drop_append_eq_append_drop]
              have h1 : offset - cur - seg.length = 0 := by omega
              rw [← hlo, h1, List.drop_zero, List.take_append_eq_append_take]
              have h2 : (seg.drop lo).take
                  (min bufRem (cur + (seg.length + segsLen segs) - offset)) =
                  seg.drop lo := by
                apply List.take_of_length_le
                omega
              have h3 : (seg.drop lo).take n = seg.drop lo := by
                apply List.take_of_length_le
                omega
              rw [h2, h3]
              congr 2
              omega
            rw [hwin, hd2]
            simp [List.append_assoc]
      · -- this whole segment lies before `offset`: skip it
        rw [if_neg hcopy]
        have hfuel2 : segs.length < f := by
          simp only [List.length_cons] at hfuel
          omega
        have hrec := ih rfl f (cur + seg.length) offset bufRem acc
          (Or.inr (by omega)) (by omega) hfuel2
        rw [hrec]
        have hflat : (seg :: segs).flatten = seg ++ segs.flatten := by simp
        have hcond2 : (cur + seg.length + segsLen segs < size ∧
            cur + seg.length + segsLen segs - offset < bufRem) ↔
            (cur + (seg.length + segsLen segs) < size ∧
             cur + (seg.length + segsLen segs) - offset < bufRem) := by
          constructor <;> intro hc <;> exact ⟨by omega, by omega⟩
        by_cases hcc : cur + (seg.length + segsLen segs) < size ∧
            cur + (seg.length + segsLen segs) - offset < bufRem
        · rw [if_pos (hcond2.mpr hcc), if_pos hcc]
        · rw [if_neg (fun hx => hcc (hcond2.mp hx)), if_neg hcc]
          have hwin : ((seg :: segs).flatten.drop (offset - cur)).take
              (min bufRem (cur + (seg.length + segsLen segs) - offset)) =
              (segs.flatten.drop (offset - (cur + seg.length))).take
                (min bufRem (cur + seg.length + segsLen segs - offset)) := by
            rw [hflat, List.drop_append_eq_append_drop]
            have h1 : seg.drop (offset - cur) = [] :=
              List.drop_eq_nil_of_le (by omega)
            rw [h1, List.nil_append]
            congr 2 <;> omega
          rw [hwin]

/-- Behaviour of `load` over a complete, non-overshooting chain: composition of the
in-page copy with the loop master lemma, phrased in the original `offset`
and `bufLen`. -/
theorem load_chain_eq (fetch : PageFetch) (pov : OverflowParse) (p : BtreePayload)
    (segs : List (List Byte)) (hchain : ChainTo fetch pov p.overflow segs none)
    (hle : p.buf.length + segsLen segs ≤ p.size) (offset bufLen : Nat)
    (hoff : offset < p.size) :
    p.load fetch pov offset bufLen (segs.length + 1) =
      if p.buf.length + segsLen segs < p.size ∧
          (p.buf.length + segsLen segs) - offset < bufLen
      then some (.error .overflowNotFound)
      else some (.ok
        ((((p.buf ++ segs.flatten).drop offset).take
            (min bufLen ((p.buf.length + segsLen segs) - offset))).length,
          ((p.buf ++ segs.flatten).drop offset).take
            (min bufLen ((p.buf.length + segsLen segs) - offset)))) := by
  unfold BtreePayload.load
  rw [if_neg (by omega)]
  by_cases hloc : offset < p.buf.length
  · rw [if_pos hloc]
    rw [loadLoop_complete_chain fetch pov p.size hchain rfl (segs.length + 1)
        p.buf.length (offset + min (p.buf.length - offset) bufLen)
        (bufLen - min (p.buf.length - offset) bufLen)
        ((p.buf.drop offset).take (min (p.buf.length - offset) bufLen))
        (by omega) hle (by omega)]
    have hciff : (p.buf.length + segsLen segs < p.size ∧
        p.buf.length + segsLen segs - (offset + min (p.buf.length - offset) bufLen) <
          bufLen - min (p.buf.length - offset) bufLen) ↔
        (p.buf.length + segsLen segs < p.size ∧
          p.buf.length + segsLen segs - offset < bufLen) := by
      omega
    by_cases hcc : p.buf.length + segsLen segs < p.size ∧
        p.buf.length + segsLen segs - offset < bufLen
    · rw [if_pos (hciff.mpr hcc), if_pos hcc]
      simp [Except.map]
    · rw [if_neg (fun hx => hcc (hciff.mp hx)), if_neg hcc]
      have hE : (p.buf.drop offset).take (min (p.buf.length - offset) bufLen) ++
          (segs.flatten.drop
            (offset + min (p.buf.length - offset) bufLen - p.buf.length)).take
            (min (bufLen - min (p.buf.length - offset) bufLen)
              (p.buf.length + segsLen segs -
                (offset + min (p.buf.length - offset) bufLen))) =
          ((p.buf ++ segs.flatten).drop offset).take
            (min bufLen (p.buf.length + segsLen segs - offset)) := by
        rw [List.drop_append_eq_append_drop]
        have h1 : offset - p.buf.length = 0 := by omega
        rw [h1, List.drop_zero, List.take_append_eq_append_take]
        have hdl : (p.buf.drop offset).length = p.buf.length - offset := by
          simp [List.length_drop]
        rcases Nat.le_total bufLen (p.buf.length - offset) with hmin | hmin
        · have e1 : offset + min (p.buf.length - offset) bufLen - p.buf.length = 0 := by
            omega
          have e2 : min (bufLen - min (p.buf.length - offset) bufLen)
              (p.buf.length + segsLen segs -
                (offset + min (p.buf.length - offset) bufLen)) = 0 := by
            omega
          have e3 : min bufLen (p.buf.length + segsLen segs - offset) = bufLen := by
            omega
          have e4 : min (p.buf.length - offset) bufLen = bufLen := by omega
          rw [e1, e2, e3, e4]
          have e5 : bufLen - (p.buf.drop offset).length = 0 := by omega
          rw [e5]
          simp
        · have e1 : offset + min (p.buf.length - offset) bufLen - p.buf.length = 0 := by
            omega
          have e4 : min (p.buf.length - offset) bufLen = p.buf.length - offset := by
            omega
          have e6 : (p.buf.drop offset).take (p.buf.length - offset) = p.buf.drop offset := by
            apply List.take_of_length_le
            omega
          have e7 : ((p.buf.drop offset).take
              (min bufLen (p.buf.length + segsLen segs - offset))) = p.buf.drop offset := by
            apply List.take_of_length_le
            omega
          rw [e1, List.drop_zero, e4, e6, e7]
          congr 2
          omega
      rw [hE]
      simp [Except.map]
  · rw [if_neg hloc]
    rw [loadLoop_complete_chain fetch pov p.size hchain rfl (segs.length + 1)
        p.buf.length offset bufLen [] (Or.inr (by omega)) hle (by omega)]
    by_cases hcc : p.buf.length + segsLen segs < p.size ∧
        p.buf.length + segsLen segs - offset < bufLen
    · rw [if_pos hcc, if_pos hcc]
      simp [Except.map]
    · rw [if_neg hcc, if_neg hcc]
      have hE : (segs.flatten.drop (offset - p.buf.length)).take
          (min bufLen (p.buf.length + segsLen segs - offset)) =
          ((p.buf ++ segs.flatten).drop offset).take
            (min bufLen (p.buf.length + segsLen segs - offset)) := by
        rw [List.drop_append_eq_append_drop]
        have h1 : p.buf.drop offset = [] := List.drop_eq_nil_of_le (by omega)
        rw [h1, List.nil_append]
      rw [hE]
      simp [Except.map]

/-- When the chain, followed from the head, reaches a page whose fetch
fails while the window still needs bytes there, the loop surfaces the
pager error. -/
theorem loadLoop_fetch_fail (fetch : PageFetch) (pov : OverflowParse) (size : Nat) :
    ∀ {overflow : Option Nat} {segs : List (List Byte)} {rest : Option Nat},
    ChainTo fetch pov overflow segs rest →
    ∀ {pid : Nat}, rest = some pid → fetch pid = none →
    ∀ (fuel cur offset bufRem : Nat) (acc : List Byte),
    cur ≤ offset → cur + segsLen segs < size →
    (cur + segsLen segs) - offset < bufRem → segs.length < fuel →
    loadLoop fetch pov size fuel cur offset bufRem overflow acc =
      some (.error .pagerError) := by
  intro overflow segs rest hchain
  induction hchain with
  | nil o =>
      intro pid hrest hfail fuel cur offset bufRem acc hco hsz hwin hfuel
      subst hrest
      simp only [segsLen, List.map_nil, List.sum_nil, Nat.add_zero] at hsz hwin
      obtain ⟨f, rfl⟩ : ∃ f, fuel = f + 1 := ⟨fuel - 1, by omega⟩
      rw [loadLoop, if_pos ⟨by omega, hsz⟩]
      simp [hfail]
  | @cons pid₀ pb seg nextOv segs rest hfetch hpov htail ih =>
      intro pid hrest hfail fuel cur offset bufRem acc hco hsz hwin hfuel
      subst hrest
      have hseglen : segsLen (seg :: segs) = seg.length + segsLen segs := by
        simp [segsLen]
      rw [hseglen] at hsz hwin
      obtain ⟨f, rfl⟩ : ∃ f, fuel = f + 1 := ⟨fuel - 1, by omega⟩
      have hfuel2 : segs.length < f := by
        simp only [List.length_cons] at hfuel
        omega
      rw [loadLoop, if_pos ⟨by omega, by omega⟩]
      simp only [hfetch, hpov]
      by_cases hcopy : offset < cur + seg.length
      · rw [if_pos hcopy]
        have hn : min (seg.length - (offset - cur)) bufRem =
            seg.length - (offset - cur) := by
          omega
        rw [hn]
        exact ih rfl hfail f (cur + seg.length)
          (offset + (seg.length - (offset - cur)))
          (bufRem - (seg.length - (offset - cur))) _ (by omega) (by omega)
          (by omega) hfuel2
      · rw [if_neg hcopy]
        exact ih rfl hfail f (cur + seg.length) offset bufRem acc (by omega)
          (by omega) (by omega) hfuel2

/-- The loop never produces the offset-out-of-range error: that error is
raised only by the pre-loop check in `load`. -/
theorem loadLoop_ne_oor (fetch : PageFetch) (pov : OverflowParse) (size : Nat) :
    ∀ (fuel cur offset bufRem : Nat) (overflow : Option Nat) (acc : List Byte),
    loadLoop fetch pov size fuel cur offset bufRem overflow acc ≠
      some (.error .offsetOutOfRange) := by
  intro fuel
  induction fuel with
  | zero =>
      intro cur offset bufRem overflow acc
      simp only [loadLoop]
      split <;> simp
  | succ f ih =>
      intro cur offset bufRem overflow acc
      simp only [loadLoop]
      split
      · rcases overflow with _ | pid
        · simp
        · rcases hf : fetch pid with _ | pb
          · simp [hf]
          · rcases hp : pov pb with _ | ⟨seg, nextOv⟩
            · simp [hf, hp]
            · simp only [hf, hp]
              split
              · exact ih _ _ _ _ _
              · exact ih _ _ _ _ _
      · simp

/-- With an empty remaining destination the loop exits at once. -/
theorem loadLoop_bufRem_zero (fetch : PageFetch) (pov : OverflowParse) (size : Nat)
    (fuel cur offset : Nat) (overflow : Option Nat) (acc : List Byte) :
    loadLoop fetch pov size fuel cur offset 0 overflow acc = some (.ok acc) := by
  cases fuel <;> simp [loadLoop]

/-! ## Claims about the payload assembler -/

/-- Claim C2: for every payload with a well-formed overflow chain (the
chain terminates and the combined segment lengths reach `size` exactly)
and every `offset < size`, `load(offset, buf)` returns
`min(buf.len, size − offset)` and the bytes written are the slice
`[offset, offset + n_loaded)` of the concatenated logical payload (local
prefix followed by the overflow segments in chain order); in particular
`load(0, buf)` with `buf.len ≥ size` returns exactly `size` bytes whose
first `local_bytes.len` bytes equal `local_bytes`. -/
theorem load_windowing (fetch : PageFetch) (pov : OverflowParse) (p : BtreePayload)
    (segs : List (List Byte)) (hchain : ChainTo fetch pov p.overflow segs none)
    (hsum : p.buf.length + segsLen segs = p.size) :
    (∀ offset bufLen, offset < p.size →
        p.load fetch pov offset bufLen (segs.length + 1) =
          some (.ok (min bufLen (p.size - offset),
            ((p.buf ++ segs.flatten).drop offset).take (min bufLen (p.size - offset))))) ∧
    (∀ bufLen, 0 < p.size → p.size ≤ bufLen →
        p.load fetch pov 0 bufLen (segs.length + 1) =
          some (.ok (p.size, p.buf ++ segs.flatten)) ∧
        (p.buf ++ segs.flatten).take p.buf.length = p.buf) := by
  have hXlen : (p.buf ++ segs.flatten).length = p.size := by
    rw [List.length_append, List.length_flatten]
    exact hsum
  have hmain : ∀ offset bufLen, offset < p.size →
      p.load fetch pov offset bufLen (segs.length + 1) =
        some (.ok (min bufLen (p.size - offset),
          ((p.buf ++ segs.flatten).drop offset).take (min bufLen (p.size - offset)))) := by
    intro offset bufLen hoff
    rw [load_chain_eq fetch pov p segs hchain (by omega) offset bufLen hoff]
    rw [if_neg (by omega)]
    rw [hsum]
    have hlen2 : (((p.buf ++ segs.flatten).drop offset).take
        (min bufLen (p.size - offset))).length = min bufLen (p.size - offset) := by
      rw [List.length_take, List.length_drop, hXlen]
      omega
    rw [hlen2]
  refine ⟨hmain, ?_⟩
  intro bufLen hpos hbl
  have h0 := hmain 0 bufLen (by omega)
  have hm : min bufLen (p.size - 0) = p.size := by omega
  rw [hm] at h0
  have hall : ((p.buf ++ segs.flatten).drop 0).take p.size = p.buf ++ segs.flatten := by
    rw [List.drop_zero]
    exact List.take_of_length_le (by omega)
  rw [hall] at h0
  refine ⟨h0, ?_⟩
  rw [List.take_append_eq_append_take]
  simp

def fetchW : PageFetch := fun pid =>
  if pid = 7 then some [20, 21, 22, 99] else none

def povW : OverflowParse := fun pb =>
  if pb = [20, 21, 22, 99] then some ([20, 21, 22], none) else none

def payloadW : BtreePayload := ⟨[10, 11, 12, 13], (1, 3), 5, some 7⟩

theorem chainW : ChainTo fetchW povW payloadW.overflow [[20, 21, 22]] none :=
  ChainTo.cons rfl rfl (ChainTo.nil none)

/-- Witness for C2: local bytes `[11, 12]`, one overflow segment
`[20, 21, 22]`, `size = 5`. -/
theorem load_windowing_witness :
    payloadW.load fetchW povW 1 10 2 =
      some (.ok (min 10 (payloadW.size - 1),
        ((payloadW.buf ++ [[20, 21, 22]].flatten).drop 1).take
          (min 10 (payloadW.size - 1)))) ∧
    payloadW.load fetchW povW 0 10 2 =
      some (.ok (payloadW.size, payloadW.buf ++ [[20, 21, 22]].flatten)) :=
  ⟨(load_windowing fetchW povW payloadW [[20, 21, 22]] chainW (by decide)).1 1 10
      (by decide),
   ((load_windowing fetchW povW payloadW [[20, 21, 22]] chainW (by decide)).2 10
      (by decide) (by decide)).1⟩

/-- Claim C6: `load(offset, dst)` fails with the offset-out-of-range
error exactly when `offset ≥ size` (so `load(size, dst)` always fails,
regardless of `dst` and of the pager), and a call with `dst.len == 0` and
`offset < size` returns `0` without error; since both statements hold for
every `fetch` function — including one that always fails — no page is
fetched in either situation. -/
theorem load_offset_out_of_range :
    (∀ (fetch : PageFetch) (pov : OverflowParse) (p : BtreePayload)
        (offset bufLen fuel : Nat),
        p.load fetch pov offset bufLen fuel = some (.error .offsetOutOfRange) ↔
          p.size ≤ offset) ∧
    (∀ (fetch : PageFetch) (pov : OverflowParse) (p : BtreePayload)
        (offset fuel : Nat), offset < p.size →
        p.load fetch pov offset 0 fuel = some (.ok (0, []))) := by
  constructor
  · intro fetch pov p offset bufLen fuel
    constructor
    · intro h
      by_contra hlt
      unfold BtreePayload.load at h
      rw [if_neg (by omega)] at h
      have key : ∀ (o : Option (Except LoadErr (List Byte))),
          o ≠ some (.error .offsetOutOfRange) →
          (o.map (Except.map fun acc => (acc.length, acc))) ≠
            some (.error .offsetOutOfRange) := by
        intro o hne hmap
        rcases o with _ | x
        · cases hmap
        · rcases x with e | v
          · simp [Except.map] at hmap
            exact hne (by rw [hmap])
          · simp [Except.map] at hmap
      split at h
      · exact key _ (loadLoop_ne_oor _ _ _ _ _ _ _ _ _) h
      · exact key _ (loadLoop_ne_oor _ _ _ _ _ _ _ _ _) h
    · intro h
      unfold BtreePayload.load
      rw [if_pos h]
  · intro fetch pov p offset fuel hoff
    unfold BtreePayload.load
    rw [if_neg (by omega)]
    by_cases hloc : offset < p.buf.length
    · rw [if_pos hloc]
      have hn0 : min (p.buf.length - offset) 0 = 0 := by omega
      rw [hn0]
      simp only [Nat.sub_zero, List.take_zero]
      rw [loadLoop_bufRem_zero]
      simp [Except.map]
    · rw [if_neg hloc]
      rw [loadLoop_bufRem_zero]
      simp [Except.map]

/-- Witness for C6: out-of-range offset fails; zero-length destination
with in-range offset succeeds with 0 bytes (under the same pager whose
only page is 7 — and, by the theorem, under any pager at all). -/
theorem load_offset_out_of_range_witness :
    payloadW.load fetchW povW 5 3 2 = some (.error .offsetOutOfRange) ∧
    payloadW.load fetchW povW 2 0 2 = some (.ok (0, [])) :=
  ⟨(load_offset_out_of_range.1 fetchW povW payloadW 5 3 2).mpr (by decide),
   load_offset_out_of_range.2 fetchW povW payloadW 2 2 (by decide)⟩

/-- Claim C7: for `offset < size` over a terminated, non-overshooting
overflow chain, `load` fails with the overflow-chain-truncated error
exactly when the chain ends while the destination window still needs
bytes: writing `T` for the total logical bytes the chain provides
(`local_bytes.len` plus the combined segment lengths), the error occurs
iff `T < size` (fewer logical bytes than `size`) and `T − offset <
dst.len` (the destination is not yet full when the chain ends). -/
theorem load_truncated_iff (fetch : PageFetch) (pov : OverflowParse) (p : BtreePayload)
    (segs : List (List Byte)) (hchain : ChainTo fetch pov p.overflow segs none)
    (hle : p.buf.length + segsLen segs ≤ p.size) (offset bufLen : Nat)
    (hoff : offset < p.size) :
    (p.load fetch pov offset bufLen (segs.length + 1) =
        some (.error .overflowNotFound)) ↔
      (p.buf.length + segsLen segs < p.size ∧
        (p.buf.length + segsLen segs) - offset < bufLen) := by
  rw [load_chain_eq fetch pov p segs hchain hle offset bufLen hoff]
  by_cases hc : p.buf.length + segsLen segs < p.size ∧
      p.buf.length + segsLen segs - offset < bufLen
  · rw [if_pos hc]
    simp [hc]
  · rw [if_neg hc]
    simp [hc]

def povT : OverflowParse := fun pb =>
  if pb = [20, 21, 22, 99] then some ([20, 21, 22], none) else none

def payloadT : BtreePayload := ⟨[10, 11, 12, 13], (1, 3), 9, some 7⟩

/-- Witness for C7: `size = 9` but the chain provides only `2 + 3 = 5`
logical bytes; a window needing bytes past the chain end errors, one that
does not need them succeeds. -/
theorem load_truncated_iff_witness :
    payloadT.load fetchW povT 1 10 2 = some (.error .overflowNotFound) ∧
    ¬ payloadT.load fetchW povT 1 4 2 = some (.error .overflowNotFound) :=
  ⟨(load_truncated_iff fetchW povT payloadT [[20, 21, 22]]
      (ChainTo.cons rfl rfl (ChainTo.nil none)) (by decide) 1 10 (by decide)).mpr
      (by decide),
   fun h => by
    have := (load_truncated_iff fetchW povT payloadT [[20, 21, 22]]
      (ChainTo.cons rfl rfl (ChainTo.nil none)) (by decide) 1 4 (by decide)).mp h
    simp [payloadT, BtreePayload.buf, segsLen] at this⟩

/-- Claim C9: every `load` call walks the overflow chain from its head,
fetching each page in turn while the destination still needs bytes and
`cur < size`; consequently, if following the chain reaches a page id
whose fetch fails while the window still needs the chain there (the
bytes before that page number `T < size` of them and `T − offset <
dst.len`), `load` fails with the pager error — even when that page
contributes no byte to the requested window (`offset ≥ T` is allowed). -/
theorem load_pager_error (fetch : PageFetch) (pov : OverflowParse) (p : BtreePayload)
    (segs : List (List Byte)) (pid : Nat)
    (hchain : ChainTo fetch pov p.overflow segs (some pid))
    (hfail : fetch pid = none) (offset bufLen : Nat) (hoff : offset < p.size)
    (hT : p.buf.length + segsLen segs < p.size)
    (hwin : (p.buf.length + segsLen segs) - offset < bufLen) :
    p.load fetch pov offset bufLen (segs.length + 1) =
      some (.error .pagerError) := by
  unfold BtreePayload.load
  rw [if_neg (by omega)]
  by_cases hloc : offset < p.buf.length
  · rw [if_pos hloc]
    have hn0 : min (p.buf.length - offset) bufLen = p.buf.length - offset := by
      omega
    rw [hn0]
    rw [loadLoop_fetch_fail fetch pov p.size hchain rfl hfail (segs.length + 1)
        p.buf.length (offset + (p.buf.length - offset))
        (bufLen - (p.buf.length - offset)) _ (by omega) (by omega) (by omega)
        (by omega)]
    simp [Except.map]
  · rw [if_neg hloc]
    rw [loadLoop_fetch_fail fetch pov p.size hchain rfl hfail (segs.length + 1)
        p.buf.length offset bufLen [] (by omega) (by omega) (by omega) (by omega)]
    simp [Except.map]

def povFail : OverflowParse := fun pb =>
  if pb = [20, 21, 22, 99] then some ([20, 21, 22], some 8) else none

/-- Witness for C9: the chain continues at page 8, which fails to fetch;
with the requested window `[7, 17)` lying wholly beyond the five bytes in
front of page 8, the failing page contributes nothing, yet `load`
fails with the pager error. -/
theorem load_pager_error_witness :
    (⟨[10, 11, 12, 13], (1, 3), 9, some 7⟩ : BtreePayload).load fetchW povFail 7 10 2 =
      some (.error .pagerError) :=
  load_pager_error fetchW povFail ⟨[10, 11, 12, 13], (1, 3), 9, some 7⟩
    [[20, 21, 22]] 8 (ChainTo.cons rfl rfl (ChainTo.nil (some 8))) rfl 7 10
    (by decide) (by decide) (by decide)

/-! ## SQL mini-parser (src/parser.rs)

The parser consumes tokens through `get_token_no_space`, an external
collaborator (token.rs): a function from a byte slice to
`Option (consumed_bytes, Token)` that skips leading whitespace.  The
parser is embedded over an arbitrary such function (`Tokenizer`); a
concrete tokenizer modelled from the spec is defined further down for
evaluating the parser on concrete inputs. -/

/-- The token type known to the parser (from the spec's token list;
`from`/`where` are Lean keywords, hence the `Kw` suffix). -/
inductive Token where
  | create
  | table
  | select
  | fromKw
  | whereKw
  | primary
  | key
  | null
  | comma
  | leftParen
  | rightParen
  | asterisk
  | identifier (name : List Byte)
  | integer (i : Int)
  | eq
  | ne
  | gt
  | ge
  | lt
  | le
deriving DecidableEq, Repr

/-- Modelled from the spec: the `get_token_no_space` contract. -/
abbrev Tokenizer := List Byte → Option (Nat × Token)

/-- Type `DataType` from src/parser.rs. -/
inductive DataType where
  | null
  | integer
  | real
  | text
  | blob
deriving DecidableEq, Repr

/-- Type `ColumnDef` from src/parser.rs. -/
structure ColumnDef where
  name : List Byte
  dataType : Option DataType
  primaryKey : Bool
deriving DecidableEq, Repr

/-- Type `CreateTable` from src/parser.rs. -/
structure CreateTable where
  tableName : List Byte
  columns : List ColumnDef
deriving DecidableEq, Repr

/-- ASCII lower-casing of one byte. -/
def lowerByte (c : Byte) : Byte := if 65 ≤ c ∧ c ≤ 90 then c + 32 else c

/-- Modelled from the spec: `CaseInsensitiveBytes::equal_to_lower_bytes`
(utils.rs) — ASCII case-insensitive comparison against a lower-case
keyword. -/
def equalToLowerBytes (bs kw : List Byte) : Bool := bs.map lowerByte == kw

def kwCreate : List Byte := [99, 114, 101, 97, 116, 101]

def kwTable : List Byte := [116, 97, 98, 108, 101]

def kwSelect : List Byte := [115, 101, 108, 101, 99, 116]

def kwFrom : List Byte := [102, 114, 111, 109]

def kwWhere : List Byte := [119, 104, 101, 114, 101]

def kwPrimary : List Byte := [112, 114, 105, 109, 97, 114, 121]

def kwKey : List Byte := [107, 101, 121]

def kwNull : List Byte := [110, 117, 108, 108]

def kwInteger : List Byte := [105, 110, 116, 101, 103, 101, 114]

def kwReal : List Byte := [114, 101, 97, 108]

def kwText : List Byte := [116, 101, 120, 116]

def kwBlob : List Byte := [98, 108, 111, 98]

/-- The data-type resolution chain of `parse_create_table`
("integer", "real", "text", "blob", case-insensitively; anything else is
the hard error). -/
def dataTypeOf (bs : List Byte) : Option DataType :=
  if equalToLowerBytes bs kwInteger then some .integer
  else if equalToLowerBytes bs kwReal then some .real
  else if equalToLowerBytes bs kwText then some .text
  else if equalToLowerBytes bs kwBlob then some .blob
  else none

/-- The data-type stage of the column loop in `parse_create_table`:
given the token after the column name (`tk`, of byte length `n`, with
`input` already advanced past it), produce the column's data type and the
next look-ahead token.  On `NULL` and on an identifier the source reads
one more token first ("no right paren" if the input ends) and then, in
the identifier case, resolves the type ("unknown data type"). -/
def readDataType (tok : Tokenizer) (tk : Token) (n : Nat) (input : List Byte) :
    Except String (Option DataType × Nat × Token × List Byte) :=
  match tk with
  | .null =>
      match tok input with
      | none => .error "no right paren"
      | some (n₁, tk₁) => .ok (some .null, n₁, tk₁, input.drop n₁)
  | .identifier dt =>
      match tok input with
      | none => .error "no right paren"
      | some (n₁, tk₁) =>
          match dataTypeOf dt with
          | none => .error "unknown data type"
          | some d => .ok (some d, n₁, tk₁, input.drop n₁)
  | _ => .ok (none, n, tk, input)

/-- The primary-key stage of the column loop: on `PRIMARY`, expect `KEY`
("no key" otherwise) and read the next look-ahead token. -/
def readPrimaryKey (tok : Tokenizer) (tk : Token) (n : Nat) (input : List Byte) :
    Except String (Bool × Nat × Token × List Byte) :=
  match tk with
  | .primary =>
      match tok input with
      | some (nk, .key) =>
          match tok (input.drop nk) with
          | none => .error "no right paren"
          | some (n₁, tk₁) => .ok (true, n₁, tk₁, (input.drop nk).drop n₁)
      | _ => .error "no key"
  | _ => .ok (false, n, tk, input)

/-- The column loop of `parse_create_table`.  Note the `comma` arm: as in
the source, it advances the input by `n₃` once more even though the comma
token was already consumed when it was read (`input = &input[n..]` in the
`Token::Comma` arm), skipping `n₃` extra bytes.  Returns the remaining
input after the closing right-paren together with the columns; `fuel`
bounds the number of columns (`none` = bound hit). -/
def parseColumns (tok : Tokenizer) :
    Nat → List Byte → List ColumnDef →
    Option (Except String (List Byte × List ColumnDef))
  | 0, _, _ => none
  | fuel + 1, input, cols =>
      match tok input with
      | some (n₀, .identifier columnName) =>
          let input₁ := input.drop n₀
          match tok input₁ with
          | none => some (.error "no right paren")
          | some (n₁, tk₁) =>
              match readDataType tok tk₁ n₁ (input₁.drop n₁) with
              | .error e => some (.error e)
              | .ok (dt, n₂, tk₂, input₂) =>
                  match readPrimaryKey tok tk₂ n₂ input₂ with
                  | .error e => some (.error e)
                  | .ok (pk, n₃, tk₃, input₃) =>
                      let cols₁ := cols ++ [⟨columnName, dt, pk⟩]
                      match tk₃ with
                      | .comma => parseColumns tok fuel (input₃.drop n₃) cols₁
                      | .rightParen => some (.ok (input₃, cols₁))
                      | _ => some (.error "no right paren")
      | _ => some (.error "no column name")

/-- Embedding of `parse_create_table`: `CREATE TABLE <ident> '(' columns`.  Returns
`(consumed_bytes, CreateTable)`; the consumed count is the input length
minus the length of the input remaining after the right-paren. -/
def parseCreateTable (tok : Tokenizer) (fuel : Nat) (input : List Byte) :
    Option (Except String (Nat × CreateTable)) :=
  match tok input with
  | some (n, .create) =>
      let input₁ := input.drop n
      match tok input₁ with
      | some (n, .table) =>
          let input₂ := input₁.drop n
          match tok input₂ with
          | some (n, .identifier tableName) =>
              let input₃ := input₂.drop n
              match tok input₃ with
              | some (n, .leftParen) =>
                  match parseColumns tok fuel (input₃.drop n) [] with
                  | none => none
                  | some (.error e) => some (.error e)
                  | some (.ok (rest, columns)) =>
                      some (.ok (input.length - rest.length, ⟨tableName, columns⟩))
              | _ => some (.error "no left paren")
          | _ => some (.error "no table_name")
      | _ => some (.error "no table")
  | _ => some (.error "no create")

/-- Type `ResultColumn` from src/parser.rs. -/
inductive ResultColumn where
  | all
  | columnName (name : List Byte)
deriving DecidableEq, Repr

/-- Type `BinaryOperator` from src/parser.rs. -/
inductive BinaryOperator where
  | eq
  | ne
  | gt
  | ge
  | lt
  | le
deriving DecidableEq, Repr

/-- Modelled from the spec: the record value model (record.rs); the
parser produces only integer literals. -/
inductive Value where
  | integer (i : Int)
deriving DecidableEq, Repr

/-- Type `Expr` from src/parser.rs (heap boxing of children elided). -/
inductive Expr where
  | column (name : List Byte)
  | binaryOperator (operator : BinaryOperator) (left : Expr) (right : Expr)
  | literalValue (v : Value)
deriving DecidableEq, Repr

/-- Type `Select` from src/parser.rs. -/
structure Select where
  tableName : List Byte
  columns : List ResultColumn
  selection : Option Expr
deriving DecidableEq, Repr

/-- Embedding of `parse_result_column`. -/
def parseResultColumn (tok : Tokenizer) (input : List Byte) :
    Except String (Nat × ResultColumn) :=
  match tok input with
  | some (n, .identifier id) => .ok (n, .columnName id)
  | some (n, .asterisk) => .ok (n, .all)
  | _ => .error "no result column name"

/-- The result-column loop of `parse_select`; stops after consuming
`FROM` and returns the remaining input. -/
def parseSelectColumns (tok : Tokenizer) :
    Nat → List Byte → List ResultColumn →
    Option (Except String (List Byte × List ResultColumn))
  | 0, _, _ => none
  | fuel + 1, input, cols =>
      match tok input with
      | some (n, .comma) =>
          let input₁ := input.drop n
          match parseResultColumn tok input₁ with
          | .error e => some (.error e)
          | .ok (n₁, rc) =>
              parseSelectColumns tok fuel (input₁.drop n₁) (cols ++ [rc])
      | some (n, .fromKw) => some (.ok (input.drop n, cols))
      | _ => some (.error "no from")

/-- The atom stage of `parse_expr`: an identifier is a column reference,
an integer a literal. -/
def atomOf : Option (Nat × Token) → Option (Nat × Expr)
  | some (n, .identifier id) => some (n, .column id)
  | some (n, .integer i) => some (n, .literalValue (.integer i))
  | _ => none

/-- The operator stage of `parse_expr`; `none` covers both end-of-input
and a non-comparison token (the source returns the atom alone then). -/
def opOf : Option (Nat × Token) → Option (Nat × BinaryOperator)
  | some (n, .eq) => some (n, .eq)
  | some (n, .ne) => some (n, .ne)
  | some (n, .gt) => some (n, .gt)
  | some (n, .ge) => some (n, .ge)
  | some (n, .lt) => some (n, .lt)
  | some (n, .le) => some (n, .le)
  | _ => none

/-- Embedding of `parse_expr`: atom, optional comparison operator, right-recursive
tail.  `fuel` bounds the recursion depth (the Rust recursion is bounded
only by the input). -/
def parseExpr (tok : Tokenizer) : Nat → List Byte → Option (Except String (Nat × Expr))
  | 0, _ => none
  | fuel + 1, input =>
      match atomOf (tok input) with
      | none => some (.error "no expr")
      | some (n, left) =>
          let input₁ := input.drop n
          match opOf (tok input₁) with
          | none => some (.ok (n, left))
          | some (n₁, op) =>
              let input₂ := input₁.drop n₁
              match parseExpr tok fuel input₂ with
              | none => none
              | some (.error e) => some (.error e)
              | some (.ok (n₂, right)) =>
                  some (.ok (input.length - input₂.length + n₂,
                    .binaryOperator op left right))

/-- Embedding of `parse_select`: `SELECT result_columns FROM <ident> [WHERE expr]`. -/
def parseSelect (tok : Tokenizer) (fuel : Nat) (input : List Byte) :
    Option (Except String (Nat × Select)) :=
  match tok input with
  | some (n, .select) =>
      let input₁ := input.drop n
      match parseResultColumn tok input₁ with
      | .error e => some (.error e)
      | .ok (n₁, rc) =>
          match parseSelectColumns tok fuel (input₁.drop n₁) [rc] with
          | none => none
          | some (.error e) => some (.error e)
          | some (.ok (input₂, columns)) =>
              match tok input₂ with
              | some (n₂, .identifier tableName) =>
                  let input₃ := input₂.drop n₂
                  match tok input₃ with
                  | some (n₃, .whereKw) =>
                      let input₄ := input₃.drop n₃
                      match parseExpr tok fuel input₄ with
                      | none => none
                      | some (.error e) => some (.error e)
                      | some (.ok (n₄, sel)) =>
                          some (.ok (input.length - (input₄.drop n₄).length,
                            ⟨tableName, columns, some sel⟩))
                  | _ =>
                      some (.ok (input.length - input₃.length,
                        ⟨tableName, columns, none⟩))
              | _ => some (.error "no table_name")
  | _ => some (.error "no select")

/-! ### A concrete tokenizer

Modelled from the spec: token.rs is not among the given source files; the
spec specifies only the contract (skip leading whitespace, report
`(consumed_bytes, token)`, `None` at end of input or on an unrecognized
byte) and the token list.  Standard SQL lexical rules fill the gaps:
keywords are ASCII case-insensitive, identifiers are
`[A-Za-z_][A-Za-z0-9_]*`, integers are digit runs. -/

def isWhite (c : Byte) : Bool := c == 32 || c == 9 || c == 10 || c == 13

def isDigit (c : Byte) : Bool := decide (48 ≤ c ∧ c ≤ 57)

def isIdentStart (c : Byte) : Bool :=
  decide ((65 ≤ c ∧ c ≤ 90) ∨ (97 ≤ c ∧ c ≤ 122) ∨ c = 95)

def isIdentChar (c : Byte) : Bool := isIdentStart c || isDigit c

def digitsToNat (ds : List Byte) : Nat :=
  ds.foldl (fun acc d => acc * 10 + (d - 48)) 0

/-- Keyword recognition: a word that case-folds to a keyword is that
keyword's token, otherwise it is an identifier (returned verbatim). -/
def keywordToken (w : List Byte) : Token :=
  let lw := w.map lowerByte
  if lw = kwCreate then .create
  else if lw = kwTable then .table
  else if lw = kwSelect then .select
  else if lw = kwFrom then .fromKw
  else if lw = kwWhere then .whereKw
  else if lw = kwPrimary then .primary
  else if lw = kwKey then .key
  else if lw = kwNull then .null
  else .identifier w

/-- One token at the start of the (whitespace-free) input. -/
def tokenAt : List Byte → Option (Nat × Token)
  | [] => none
  | c :: cs =>
      if c = 44 then some (1, .comma)
      else if c = 40 then some (1, .leftParen)
      else if c = 41 then some (1, .rightParen)
      else if c = 42 then some (1, .asterisk)
      else if c = 61 then some (1, .eq)
      else if c = 33 then
        match cs with
        | 61 :: _ => some (2, .ne)
        | _ => none
      else if c = 62 then
        match cs with
        | 61 :: _ => some (2, .ge)
        | _ => some (1, .gt)
      else if c = 60 then
        match cs with
        | 61 :: _ => some (2, .le)
        | _ => some (1, .lt)
      else if isDigit c then
        let ds := (c :: cs).takeWhile isDigit
        some (ds.length, .integer (digitsToNat ds : Int))
      else if isIdentStart c then
        let w := (c :: cs).takeWhile isIdentChar
        some (w.length, keywordToken w)
      else none

/-- Modelled from the spec: `get_token_no_space` — skip leading
whitespace, then one token; the consumed count includes the skipped
whitespace. -/
def getTokenNoSpace (input : List Byte) : Option (Nat × Token) :=
  let ws := (input.takeWhile isWhite).length
  match tokenAt (input.drop ws) with
  | none => none
  | some (n, t) => some (ws + n, t)

/-! ## Claims about the parser -/

def inputC3bad : List Byte :=
  [99, 114, 101, 97, 116, 101, 32, 116, 97, 98, 108, 101, 32, 102, 111, 111, 32,
   40, 105, 100, 44, 110, 97, 109, 101, 41]

def inputC3good : List Byte :=
  [99, 114, 101, 97, 116, 101, 32, 116, 97, 98, 108, 101, 32, 102, 111, 111, 32,
   40, 105, 100, 32, 105, 110, 116, 101, 103, 101, 114, 32, 112, 114, 105, 109,
   97, 114, 121, 32, 107, 101, 121, 44, 32, 110, 97, 109, 101, 32, 116, 101, 120,
   116, 44, 32, 114, 101, 97, 108, 32, 114, 101, 97, 108, 44, 32, 98, 108, 111,
   98, 32, 98, 108, 111, 98, 44, 32, 101, 109, 112, 116, 121, 32, 110, 117, 108,
   108, 44, 32, 110, 111, 95, 116, 121, 112, 101, 41]

/-- Claim C3 records the intended behaviour — on every input matching the
design grammar `CREATE TABLE <ident> '(' <col> (',' <col>)* ')'`,
`parse_create_table` succeeds with each column's identifier as its name —
but the code deviates on a slip: the `Token::Comma` arm advances the
input a second time by the comma token's consumed length (the token was
already consumed when it was read), silently skipping that many bytes
after each comma.  This theorem evaluates the embedding: on the
grammar-conforming input `create table foo (id,name)` (no whitespace
after the comma) the parse succeeds but names the second column `ame`
instead of `name` — the byte `n` is eaten by the double advance; on the
spec's own scenario input (a space after every comma, as in all of the
repository's tests) the skipped byte is the space the tokenizer would
discard anyway, so the whole input is consumed and the six expected
column definitions are produced, which is why the tests mask the slip. -/
theorem parse_create_table_comma_double_advance :
    parseCreateTable getTokenNoSpace 9 inputC3bad =
      some (.ok (26, ⟨[102, 111, 111],
        [⟨[105, 100], none, false⟩, ⟨[97, 109, 101], none, false⟩]⟩)) ∧
    ([97, 109, 101] : List Byte) ≠ [110, 97, 109, 101] ∧
    parseCreateTable getTokenNoSpace 9 inputC3good =
      some (.ok (95, ⟨[102, 111, 111],
        [⟨[105, 100], some .integer, true⟩,
         ⟨[110, 97, 109, 101], some .text, false⟩,
         ⟨[114, 101, 97, 108], some .real, false⟩,
         ⟨[98, 108, 111, 98], some .blob, false⟩,
         ⟨[101, 109, 112, 116, 121], some .null, false⟩,
         ⟨[110, 111, 95, 116, 121, 112, 101], none, false⟩]⟩)) := by
  refine ⟨by decide, by decide, by decide⟩

def inputC8 : List Byte :=
  [115, 101, 108, 101, 99, 116, 32, 42, 32, 102, 114, 111, 109, 32, 102, 111,
   111, 32, 119, 104, 101, 114, 101, 32, 105, 100, 32, 61, 32, 53]

def inputC8chain : List Byte :=
  [115, 101, 108, 101, 99, 116, 32, 42, 32, 102, 114, 111, 109, 32, 102, 111,
   111, 32, 119, 104, 101, 114, 101, 32, 97, 32, 61, 32, 98, 32, 61, 32, 99]

/-- Claim C8, in three parts.  First, `parse_select` on
`select * from foo where id = 5` succeeds, consumes the whole input (30
bytes), and produces `table_name = foo`, `columns = [All]`,
`selection = Binary(Eq, Column("id"), Literal(Integer(5)))`.  Second,
the same end to end on the chained-comparison WHERE clause
`select * from foo where a = b = c` (33 bytes, fully consumed): the
selection is the right-associatively nested
`Binary(Eq, Column("a"), Binary(Eq, Column("b"), Column("c")))`.
Third, the general fact behind it: a WHERE expression chaining two
comparisons over three atoms parses right-associatively to
`Binary(op₁, atom₁, Binary(op₂, atom₂, atom₃))` for *any* tokenizer
presenting that five-token sequence — atom, operator, atom, operator,
atom, with no comparison operator following (the source's wildcard arm
then returns the atom alone, ending the recursion) and the consumed
counts fitting in the input (true of any real tokenizer, which never
consumes past the end).  The consumed count is the sum of the five
tokens' counts, as in the source's `input_len - input.len() + n`. -/
theorem select_where_parse :
    (parseSelect getTokenNoSpace 9 inputC8 =
      some (.ok (30, ⟨[102, 111, 111], [.all],
        some (.binaryOperator .eq (.column [105, 100])
          (.literalValue (.integer 5)))⟩))) ∧
    (parseSelect getTokenNoSpace 9 inputC8chain =
      some (.ok (33, ⟨[102, 111, 111], [.all],
        some (.binaryOperator .eq (.column [97])
          (.binaryOperator .eq (.column [98]) (.column [99])))⟩))) ∧
    (∀ (tok : Tokenizer) (input : List Byte) (e₁ e₂ e₃ : Expr)
        (op₁ op₂ : BinaryOperator) (n₁ n₂ n₃ n₄ n₅ fuel : Nat),
        atomOf (tok input) = some (n₁, e₁) →
        opOf (tok (input.drop n₁)) = some (n₂, op₁) →
        atomOf (tok ((input.drop n₁).drop n₂)) = some (n₃, e₂) →
        opOf (tok (((input.drop n₁).drop n₂).drop n₃)) = some (n₄, op₂) →
        atomOf (tok ((((input.drop n₁).drop n₂).drop n₃).drop n₄)) = some (n₅, e₃) →
        opOf (tok (((((input.drop n₁).drop n₂).drop n₃).drop n₄).drop n₅)) = none →
        n₁ + n₂ + n₃ + n₄ + n₅ ≤ input.length →
        parseExpr tok (fuel + 3) input =
          some (.ok (n₁ + n₂ + n₃ + n₄ + n₅,
            .binaryOperator op₁ e₁ (.binaryOperator op₂ e₂ e₃)))) := by
  refine ⟨by decide, by decide, ?_⟩
  intro tok input e₁ e₂ e₃ op₁ op₂ n₁ n₂ n₃ n₄ n₅ fuel h1 h2 h3 h4 h5 h6 hlen
  simp only [parseExpr, h1, h2, h3, h4, h5, h6]
  simp only [List.length_drop, Option.some.injEq, Except.ok.injEq, Prod.mk.injEq]
  exact ⟨by omega, trivial⟩

def inputABC : List Byte := [97, 32, 61, 32, 98, 32, 61, 32, 99]

/-- Witness for C8, applying the general right-association statement to
the concrete tokenizer on `a = b = c`. -/
theorem select_where_parse_witness :
    parseExpr getTokenNoSpace 3 inputABC =
      some (.ok (9, .binaryOperator .eq (.column [97])
        (.binaryOperator .eq (.column [98]) (.column [99])))) :=
  select_where_parse.2.2 getTokenNoSpace inputABC (.column [97]) (.column [98])
    (.column [99]) .eq .eq 1 2 2 2 2 0 (by decide) (by decide) (by decide)
    (by decide) (by decide) (by decide) (by decide)

end Prsqlite
